import Mathlib

/-!
Verification of the data-comparison core of `streamlit_app.py`
(ComparadorDeDatos): a shallow embedding of the pure data pipeline —
`remove_accents`, `normalize_value`, `normalize_column`,
`get_unique_records`, and the projection / merge / non-match /
statistics block of `main` (lines 375-460) — together with theorems
settling the specification's claims about it.

Python scalar values are modelled by `PyVal`.  A float is observed by the
program only through `str(f)`, `f.is_integer()`, `int(f)` and `pd.isna(f)`,
so it is embedded as that observation record (`PyFloat`).  Machine floats
themselves are never computed with.
-/

/-- A Python float as the pipeline observes it: `render` is Python's
`str(f)` (shortest round-trip decimal rendering), `intPart` is `some n`
exactly when `f.is_integer()` is `True` and `int(f) = n`, and `isNan`
marks the NaN value (the one float for which `pd.isna` holds). -/
structure PyFloat where
  render : String
  intPart : Option Int
  isNan : Bool
  deriving DecidableEq, Repr

/-- A Python scalar cell value: `None`, a string, an int, or a float. -/
inductive PyVal where
  | null
  | str (s : String)
  | int (n : Int)
  | float (f : PyFloat)
  deriving DecidableEq, Repr

/-- Python `pd.isna` on a scalar: true for `None` and for float NaN. -/
def pd_isna : PyVal → Bool
  | .null => true
  | .float f => f.isNan
  | _ => false

/-- The canonical key pandas hashing assigns to a non-missing scalar:
ints and integer-valued floats hash alike (`1 == 1.0` in Python), other
floats are determined by their rendering (shortest round-trip rendering
is injective on floats), strings and `None` by themselves.  NaN has no
canonical key (`canon` is `none`). -/
inductive PyCanon where
  | cnone
  | cstr (s : String)
  | cnum (n : Int)
  | cfloat (r : String)
  deriving DecidableEq, Repr

def canon : PyVal → Option PyCanon
  | .null => some .cnone
  | .str s => some (.cstr s)
  | .int n => some (.cnum n)
  | .float f =>
      if f.isNan then none
      else
        match f.intPart with
        | some n => some (.cnum n)
        | none => some (.cfloat f.render)

/-- Cell equality as the pandas operations of this pipeline
(`merge`, `isin`, `drop_duplicates`) treat it: missing values (`None`,
NaN) match each other, and non-missing values match by canonical key.
Every cell actually compared by the pipeline is a string produced by
`normalize_value`, where this is plain string equality. -/
def pdEq (v w : PyVal) : Bool :=
  (pd_isna v && pd_isna w) || ((canon v).isSome && decide (canon v = canon w))

/-- Python's `str()` on a scalar. -/
def pyStr : PyVal → String
  | .null => "None"
  | .str s => s
  | .int n => toString n
  | .float f => f.render

/-- Python's `str.isdigit` character test.  Python also accepts other
Unicode digit characters (e.g. Eastern Arabic digits); the two tests
agree on every character handled in this development, all of which are
ASCII or non-digit. -/
def pyIsDigit (c : Char) : Bool := c.isDigit

/-- The function `normalize_value` (lines 29-57).  The `try` body is total on the
embedded values, so the `except` fallback (line 57) is unreachable and
not modelled.  Note the source order: the float-to-integer rewrite
(lines 49-51) runs AFTER trimming and digit filtering and overwrites
their result wholesale. -/
def normalize_value (value : PyVal) (trim_start : Nat := 0) (trim_end : Nat := 0) : String :=
  if pd_isna value then "" else
  let s0 := (pyStr value).toList
  let s1 := if trim_start > 0 then s0.drop trim_start else s0
  let s2 :=
    if trim_end > 0 then
      if trim_end < s1.length then s1.take (s1.length - trim_end) else []
    else s1
  let s3 := s2.filter pyIsDigit
  let s4 :=
    match value with
    | .float f =>
        match f.intPart with
        | some n => (toString n).toList
        | none => s3
    | _ => s3
  String.mk s4

/-- The claim's reading of steps 2-5 of the spec for floats with zero
fractional part, stated for comparison with the code: take the integer
form as the textual representation FIRST, and then apply trimming and
the digit filter to it. -/
def normalize_value_specC2 (value : PyVal) (trim_start : Nat) (trim_end : Nat) : String :=
  if pd_isna value then "" else
  let s0 :=
    (match value with
     | .float f =>
         match f.intPart with
         | some n => toString n
         | none => pyStr value
     | v => pyStr v).toList
  let s1 := if trim_start > 0 then s0.drop trim_start else s0
  let s2 :=
    if trim_end > 0 then
      if trim_end < s1.length then s1.take (s1.length - trim_end) else []
    else s1
  String.mk (s2.filter pyIsDigit)

/-- The float `42.0`: renders as `"42.0"`, `is_integer`, `int` is `42`. -/
def float42 : PyFloat := ⟨"42.0", some 42, false⟩

/-- The float `-5.0`: renders as `"-5.0"`, `is_integer`, `int` is `-5`. -/
def floatNeg5 : PyFloat := ⟨"-5.0", some (-5), false⟩

/-- The float NaN (`np.nan`): renders as `"nan"`, not an integer, isna. -/
def npNan : PyVal := .float ⟨"nan", none, true⟩

/-! ## Accent stripping (`remove_accents`, lines 18-27)

`unicodedata.normalize('NFKD', s)` is embedded through a character
decomposition table `nfkdChar`, specified on the characters this
development evaluates concretely; a character without a listed
decomposition decomposes to itself (true of every ASCII character and of
U+03A9 GREEK CAPITAL LETTER OMEGA).  `encode('ASCII','ignore')` followed
by `decode('ASCII')` keeps exactly the code points below 128.  On a
non-string argument `unicodedata.normalize` raises `TypeError`, so the
`except` branch returns the input unchanged. -/

/-- NFKD (compatibility) decomposition of one character. -/
def nfkdChar (c : Char) : List Char :=
  if c = 'é' then ['e', Char.ofNat 0x301]
  else if c = 'É' then ['E', Char.ofNat 0x301]
  else [c]

def asciiIgnore (cs : List Char) : List Char := cs.filter (fun c => c.toNat ≤ 127)

def remove_accents (v : PyVal) : PyVal :=
  match v with
  | .str s => .str (String.mk (asciiIgnore (s.toList.flatMap nfkdChar)))
  | v => v

/-- Modelled from the spec claim's words, for comparison with
`remove_accents`: CANONICAL decomposition (NFD, same table on the
characters used here), then removal of the combining diacritical marks
(U+0300-U+036F), keeping all base letters. -/
def nfdChar (c : Char) : List Char := nfkdChar c

def isCombiningMark (c : Char) : Bool := 0x300 ≤ c.toNat && c.toNat ≤ 0x36F

def remove_accents_specC4 (s : String) : String :=
  String.mk ((s.toList.flatMap nfdChar).filter (fun c => !isCombiningMark c))

/-! ## Tables

A pandas DataFrame is embedded as a header (ordered column names) and a
list of rows; column access resolves a name to its first index in the
header, as pandas does for unique column labels. -/

structure Table where
  header : List String
  rows : List (List PyVal)
  deriving DecidableEq, Repr

def colIdx (t : Table) (c : String) : Nat := t.header.indexOf c

def getCell (r : List PyVal) (i : Nat) : PyVal := r.getD i PyVal.null

/-- The function `normalize_column` (lines 59-66) as `main` calls it, always with
`new_column_name='normalized_key'`: pandas column assignment replaces
the column in place when the label exists and appends it otherwise. -/
def normalize_column (df : Table) (column_name : String)
    (trim_start : Nat) (trim_end : Nat) : Table :=
  let i := colIdx df column_name
  let newCell := fun r => PyVal.str (normalize_value (getCell r i) trim_start trim_end)
  if "normalized_key" ∈ df.header then
    ⟨df.header, df.rows.map (fun r => r.set (df.header.indexOf "normalized_key") (newCell r))⟩
  else
    ⟨df.header ++ ["normalized_key"], df.rows.map (fun r => r ++ [newCell r])⟩

/-- The first-wins scan behind `df.drop_duplicates(subset=[col])`:
a row is kept when no key equal to its key has been seen before it. -/
def get_unique_records_go (f : List PyVal → PyVal) (seen : List PyVal) :
    List (List PyVal) → List (List PyVal)
  | [] => []
  | r :: rs =>
      if seen.any (fun v => pdEq (f r) v) then get_unique_records_go f seen rs
      else r :: get_unique_records_go f (f r :: seen) rs

/-- The function `get_unique_records` (lines 68-70): `df.drop_duplicates(subset=[column_name])`. -/
def get_unique_records (df : Table) (column_name : String) : Table :=
  ⟨df.header, get_unique_records_go (fun r => getCell r (colIdx df column_name)) [] df.rows⟩

/-- Column projection / reordering `df[cols]`. -/
def selectCols (t : Table) (cols : List String) : Table :=
  ⟨cols, t.rows.map (fun r => cols.map (fun c => getCell r (colIdx t c)))⟩

/-- The side-tag renaming of lines 395 / 402. -/
def renameTag (cols : List String) (tag : String) : List String :=
  cols.map (fun c => c ++ tag)

/-- Lines 394-406: project a normalized table to
`['normalized_key'] + extras` and rename the extras with the side tag
(when `extras = []` this is the plain `[['normalized_key']]` branch). -/
def mergeData (nd : Table) (extras : List String) (tag : String) : Table :=
  ⟨"normalized_key" :: renameTag extras tag,
   (selectCols nd ("normalized_key" :: extras)).rows⟩

/-- Pandas `pd.merge(left, right, on='normalized_key', how='inner')`
(lines 409-414): for each left row in order, each right row with a
matching key in order; the key column appears once, at its position in
the left frame; remaining columns follow left-then-right. -/
def innerMerge (left right : Table) : Table :=
  let li := colIdx left "normalized_key"
  let ri := colIdx right "normalized_key"
  ⟨left.header ++ right.header.eraseIdx ri,
   left.rows.flatMap (fun rl =>
     (right.rows.filter (fun rr => pdEq (getCell rl li) (getCell rr ri))).map
       (fun rr => rl ++ rr.eraseIdx ri))⟩

def keyCells (t : Table) : List PyVal :=
  t.rows.map (fun r => getCell r (colIdx t "normalized_key"))

/-- Lines 416-425: rows of `merge_data2` whose key is not `isin` the
keys of `merge_data1`, the dataset-1 extra columns appended as `np.nan`,
then the columns reordered to
`['normalized_key'] + extras2_renamed + extras1_renamed`. -/
def nonMatchesOf (merge_data1 merge_data2 : Table)
    (extras1R extras2R : List String) : Table :=
  let keys1 := keyCells merge_data1
  let kept := merge_data2.rows.filter
    (fun r => !(keys1.any (fun v => pdEq (getCell r (colIdx merge_data2 "normalized_key")) v)))
  let withNan : Table :=
    ⟨merge_data2.header ++ extras1R, kept.map (fun r => r ++ List.replicate extras1R.length npNan)⟩
  selectCols withNan ("normalized_key" :: (extras2R ++ extras1R))

/-- Lines 431-434: `remove_accents` over every cell.  The source maps it
over the object-dtype columns only; `remove_accents` is the identity on
every non-string value, and strings live only in object columns, so the
cellwise map is extensionally the same operation. -/
def applyRemoveAccents (t : Table) : Table :=
  ⟨t.header, t.rows.map (fun r => r.map remove_accents)⟩

/-- Lines 437-438: `df.astype(str)` — every cell becomes the string
`str()` renders for it (`np.nan` becomes `"nan"`, `None` becomes `"None"`). -/
def astypeStr (t : Table) : Table :=
  ⟨t.header, t.rows.map (fun r => r.map (fun v => PyVal.str (pyStr v)))⟩

structure TrimOptions where
  enable : Bool
  trim_start : Nat
  trim_end : Nat
  deriving DecidableEq, Repr

structure Statistics where
  total_records : Int
  total_unique : Int
  unique_matches : Int
  unique_non_matches : Int
  duplicate_matches : Int
  duplicate_non_matches : Int
  deriving DecidableEq, Repr

structure CompareResult where
  matchesDf : Table
  non_matches : Table
  unique_matches : Table
  unique_non_matches : Table
  statistics : Statistics
  deriving DecidableEq, Repr

/-- The comparison block of `main` (lines 375-460): normalization of the
two selected columns (trim only when enabled, lines 375-388), the
projections (390-406), `matches` (409-414), `non_matches` (416-425), the
dedups (428-429), accent stripping (431-434), `astype(str)` (437-438)
and the statistics (453-460, computed with Python integer subtraction). -/
def compareRun (data1 : Table) (selected_column1 : String)
    (additional_columns1 : List String) (trim_options1 : TrimOptions)
    (data2 : Table) (selected_column2 : String)
    (additional_columns2 : List String) (trim_options2 : TrimOptions) : CompareResult :=
  let normalized_data1 := normalize_column data1 selected_column1
    (if trim_options1.enable then trim_options1.trim_start else 0)
    (if trim_options1.enable then trim_options1.trim_end else 0)
  let normalized_data2 := normalize_column data2 selected_column2
    (if trim_options2.enable then trim_options2.trim_start else 0)
    (if trim_options2.enable then trim_options2.trim_end else 0)
  let merge_data1 := mergeData normalized_data1 additional_columns1 "_dataset1"
  let merge_data2 := mergeData normalized_data2 additional_columns2 "_dataset2"
  let matchesDf := innerMerge merge_data2 merge_data1
  let non_matches := nonMatchesOf merge_data1 merge_data2
    (renameTag additional_columns1 "_dataset1") (renameTag additional_columns2 "_dataset2")
  let unique_matches := astypeStr (applyRemoveAccents (get_unique_records matchesDf "normalized_key"))
  let unique_non_matches := astypeStr (applyRemoveAccents (get_unique_records non_matches "normalized_key"))
  { matchesDf := matchesDf
    non_matches := non_matches
    unique_matches := unique_matches
    unique_non_matches := unique_non_matches
    statistics :=
      { total_records := (data2.rows.length : Int)
        total_unique := ((get_unique_records data2 selected_column2).rows.length : Int)
        unique_matches := (unique_matches.rows.length : Int)
        unique_non_matches := (unique_non_matches.rows.length : Int)
        duplicate_matches := (matchesDf.rows.length : Int) - (unique_matches.rows.length : Int)
        duplicate_non_matches := (non_matches.rows.length : Int) - (unique_non_matches.rows.length : Int) } }

/-! ## Concrete scenarios used by the claim theorems -/

def noTrimOpt : TrimOptions := ⟨false, 0, 0⟩

def table1C3 : Table := ⟨["k1"], [[.str "001"], [.str "002"]]⟩

def table2C3 : Table := ⟨["k2"], [[.str "1"], [.str "2"], [.str "3"]]⟩

def c3run : CompareResult := compareRun table1C3 "k1" [] noTrimOpt table2C3 "k2" [] noTrimOpt

def table1C4 : Table := ⟨["k1"], [[.str "1"]]⟩

def table2C4 : Table := ⟨["k2", "name"], [[.str "1", .str "Ω"]]⟩

def c4run : CompareResult := compareRun table1C4 "k1" [] noTrimOpt table2C4 "k2" ["name"] noTrimOpt

/-! ## Claim theorems C1-C4 -/

/-- C1: the claim says `normalize_value` returns only decimal digits
`0-9` for every input; the code contradicts its own docstring ("keeps
only numbers, removes any other character") on the float `-5.0`: the
integer rewrite of lines 49-51 runs after the digit filter and
reinstates the minus sign, so the result is `"-5"`. -/
theorem C1_normalize_value_digits_bug :
    normalize_value (.float floatNeg5) 0 0 = "-5" ∧
      (("-5").toList.all pyIsDigit) = false := by decide

/-- C2 (counterexample): the claim says the integer form of an
integer-valued float is the textual representation to which trimming and
the digit filter are THEN applied; on `normalize_value(42.0,
trim_start=1)` that reading yields `"2"`, while the code applies
trimming and filtering to the literal rendering `"42.0"` and then
overwrites the result with `str(int(42.0)) = "42"`. -/
theorem C2_trim_counterexample :
    normalize_value (.float float42) 1 0 = "42" ∧
      normalize_value_specC2 (.float float42) 1 0 = "2" ∧
      normalize_value (.float float42) 1 0 ≠ normalize_value_specC2 (.float float42) 1 0 := by
  decide

/-- C2 (amended): for every non-NaN floating-point input with zero
fractional part, `normalize_value` returns `str(int(value))` outright,
ignoring the trimming and filtering of steps 3-5 (which coincides with
the claim only when the integer form is non-negative and no trimming is
requested); in particular `normalize_value(42.0) = normalize_value(42) =
"42"` (see the witness). -/
theorem C2_float_integer_override (f : PyFloat) (n : Int) (trim_start trim_end : Nat)
    (hnan : f.isNan = false) (hint : f.intPart = some n) :
    normalize_value (.float f) trim_start trim_end = toString n := by
  simp [normalize_value, pd_isna, hnan, hint]

/-- Checks `normalize_value(42.0) == normalize_value(42) == "42"`, through
`C2_float_integer_override` at the concrete float `42.0`. -/
theorem C2_float_integer_override_witness :
    normalize_value (.float float42) 0 0 = "42" ∧ normalize_value (.int 42) 0 0 = "42" :=
  ⟨(C2_float_integer_override float42 42 0 0 rfl rfl).trans (by decide), by decide⟩

/-- C3 (counterexample): on table1 keys `["001","002"]` and table2 keys
`["1","2","3"]` with no trimming and no extra columns, the claim
predicts 2 unique matches and 1 unique non-match; the code produces 0
and 3, because `normalize_value` keeps leading zeros ("001" normalizes
to "001", which differs from "1"). -/
theorem C3_scenario_counterexample :
    ¬ (c3run.statistics.unique_matches = 2 ∧ c3run.statistics.unique_non_matches = 1) := by
  decide

/-- C3 (amended): on the same scenario the comparison yields 0 unique
matches, 3 unique non-matches (keys "1", "2", "3") and 0 duplicates of
either kind: `normalize_value` does not strip leading zeros, so "001"
and "002" match nothing. -/
theorem C3_scenario_actual :
    c3run.statistics = ⟨3, 3, 0, 3, 0, 0⟩ ∧
      keyCells c3run.unique_non_matches = [.str "1", .str "2", .str "3"] ∧
      normalize_value (.str "001") 0 0 = "001" := by decide

/-- C4 (counterexample): the claim says output cells keep their base
letters, with only combining diacritical marks removed by canonical
decomposition; the code instead drops EVERY non-ASCII character.  On a
comparison whose matched row carries the extra cell `"Ω"` (a base letter
with no diacritic, invariant under decomposition), the claimed reading
keeps `"Ω"` but the returned cell is the empty string. -/
theorem C4_base_letter_counterexample :
    c4run.unique_matches.rows = [[.str "1", .str ""]] ∧
      remove_accents_specC4 "Ω" = "Ω" ∧
      PyVal.str "" ≠ PyVal.str "Ω" := by decide

/-! ## Properties of the pandas cell equality -/

theorem pdEq_iff (v w : PyVal) :
    pdEq v w = true ↔
      (pd_isna v = true ∧ pd_isna w = true) ∨
        ((∃ c, canon v = some c) ∧ canon v = canon w) := by
  simp [pdEq, Option.isSome_iff_exists]

theorem canon_cnone (v : PyVal) : canon v = some .cnone ↔ v = .null := by
  cases v with
  | null => simp [canon]
  | str s => simp [canon]
  | int n => simp [canon]
  | float f =>
      simp only [canon]
      split
      · simp
      · cases h : f.intPart <;> simp

theorem isna_canon (v : PyVal) (c : PyCanon) (hna : pd_isna v = true)
    (hc : canon v = some c) : c = .cnone := by
  cases v with
  | null => simp [canon] at hc; exact hc.symm
  | str s => simp [pd_isna] at hna
  | int n => simp [pd_isna] at hna
  | float f => simp [pd_isna] at hna; simp [canon, hna] at hc

theorem pdEq_refl (v : PyVal) : pdEq v v = true := by
  rw [pdEq_iff]
  cases v with
  | null => exact Or.inl ⟨rfl, rfl⟩
  | str s => exact Or.inr ⟨⟨_, rfl⟩, rfl⟩
  | int n => exact Or.inr ⟨⟨_, rfl⟩, rfl⟩
  | float f =>
      by_cases h : f.isNan
      · exact Or.inl ⟨by simp [pd_isna, h], by simp [pd_isna, h]⟩
      · refine Or.inr ⟨?_, rfl⟩
        cases hp : f.intPart with
        | none => exact ⟨.cfloat f.render, by simp [canon, h, hp]⟩
        | some n => exact ⟨.cnum n, by simp [canon, h, hp]⟩

theorem pdEq_symm (v w : PyVal) : pdEq v w = pdEq w v := by
  by_cases h : pdEq v w = true
  · have h' := (pdEq_iff v w).mp h
    have : pdEq w v = true := by
      rw [pdEq_iff]
      rcases h' with ⟨h1, h2⟩ | ⟨⟨c, hc⟩, he⟩
      · exact Or.inl ⟨h2, h1⟩
      · exact Or.inr ⟨⟨c, he ▸ hc⟩, he.symm⟩
    rw [h, this]
  · by_cases h2 : pdEq w v = true
    · have h' := (pdEq_iff w v).mp h2
      exfalso
      apply h
      rw [pdEq_iff]
      rcases h' with ⟨h1, h3⟩ | ⟨⟨c, hc⟩, he⟩
      · exact Or.inl ⟨h3, h1⟩
      · exact Or.inr ⟨⟨c, he ▸ hc⟩, he.symm⟩
    · simp only [Bool.not_eq_true] at h h2
      rw [h, h2]

theorem pdEq_trans {u v w : PyVal} (h1 : pdEq u v = true) (h2 : pdEq v w = true) :
    pdEq u w = true := by
  rw [pdEq_iff] at h1 h2 ⊢
  rcases h1 with ⟨ha, hb⟩ | ⟨⟨c, hc⟩, he⟩
  · rcases h2 with ⟨hc', hd⟩ | ⟨⟨c', hc'⟩, he'⟩
    · exact Or.inl ⟨ha, hd⟩
    · have : c' = .cnone := isna_canon v c' hb hc'
      have hw : canon w = some .cnone := by rw [← he']; rw [hc', this]
      have : w = .null := (canon_cnone w).mp hw
      exact Or.inl ⟨ha, by simp [this, pd_isna]⟩
  · rcases h2 with ⟨ha, hb⟩ | ⟨⟨c', hc'⟩, he'⟩
    · have hcv : canon v = some c := he ▸ hc
      have hce : c = .cnone := isna_canon v c ha hcv
      have hu : u = .null := (canon_cnone u).mp (by rw [hc, hce])
      exact Or.inl ⟨by simp [hu, pd_isna], hb⟩
    · exact Or.inr ⟨⟨c, hc⟩, he.trans he'⟩

theorem pdEq_str (a b : String) : pdEq (.str a) (.str b) = decide (a = b) := by
  by_cases h : a = b <;> simp [pdEq, canon, pd_isna, h]

/-! ## Properties of the first-wins dedup -/

theorem get_unique_records_go_sublist (f : List PyVal → PyVal) :
    ∀ (rows : List (List PyVal)) (seen : List PyVal),
      (get_unique_records_go f seen rows).Sublist rows := by
  intro rows
  induction rows with
  | nil => intro seen; simp [get_unique_records_go]
  | cons r rs ih =>
      intro seen
      rw [get_unique_records_go]
      split
      · exact (ih seen).cons r
      · exact (ih (f r :: seen)).cons₂ r

/-- The spec's description of `deduplicate`: scan the rows in order,
keeping a row exactly when no earlier row carries an equal key (so the
first occurrence of each key wins and later duplicates are dropped). -/
def firstOccurrenceScan (f : List PyVal → PyVal) (prev : List (List PyVal)) :
    List (List PyVal) → List (List PyVal)
  | [] => []
  | r :: rs =>
      if prev.any (fun p => pdEq (f r) (f p)) then firstOccurrenceScan f (prev ++ [r]) rs
      else r :: firstOccurrenceScan f (prev ++ [r]) rs

theorem get_unique_records_go_eq_scan (f : List PyVal → PyVal) :
    ∀ (rows : List (List PyVal)) (seen : List PyVal) (prev : List (List PyVal)),
      (∀ p ∈ prev, ∃ v ∈ seen, pdEq (f p) v = true) →
      (∀ v ∈ seen, ∃ p ∈ prev, pdEq (f p) v = true) →
      get_unique_records_go f seen rows = firstOccurrenceScan f prev rows := by
  intro rows
  induction rows with
  | nil => intro seen prev _ _; simp [get_unique_records_go, firstOccurrenceScan]
  | cons r rs ih =>
      intro seen prev hcov hrep
      have hcond : (seen.any (fun v => pdEq (f r) v)) =
          (prev.any (fun p => pdEq (f r) (f p))) := by
        by_cases h : seen.any (fun v => pdEq (f r) v) = true
        · rw [h]
          rw [List.any_eq_true] at h
          obtain ⟨v, hv, hrv⟩ := h
          obtain ⟨p, hp, hpv⟩ := hrep v hv
          have : pdEq (f r) (f p) = true :=
            pdEq_trans hrv (by rw [pdEq_symm]; exact hpv)
          exact (List.any_eq_true.mpr ⟨p, hp, this⟩).symm
        · rw [Bool.not_eq_true] at h
          rw [h]
          by_cases h2 : prev.any (fun p => pdEq (f r) (f p)) = true
          · exfalso
            rw [List.any_eq_true] at h2
            obtain ⟨p, hp, hrp⟩ := h2
            obtain ⟨v, hv, hpv⟩ := hcov p hp
            have : pdEq (f r) v = true := pdEq_trans hrp hpv
            have : seen.any (fun v => pdEq (f r) v) = true :=
              List.any_eq_true.mpr ⟨v, hv, this⟩
            rw [h] at this
            exact Bool.false_ne_true this
          · rw [Bool.not_eq_true] at h2
            rw [h2]
      rw [get_unique_records_go, firstOccurrenceScan, hcond]
      have hcov' : ∀ p ∈ prev ++ [r], ∃ v ∈ f r :: seen, pdEq (f p) v = true := by
        intro p hp
        rcases List.mem_append.mp hp with hp | hp
        · obtain ⟨v, hv, hpv⟩ := hcov p hp
          exact ⟨v, List.mem_cons_of_mem _ hv, hpv⟩
        · rw [List.mem_singleton] at hp
          subst hp
          exact ⟨f p, List.mem_cons_self _ _, pdEq_refl _⟩
      have hrep' : ∀ v ∈ f r :: seen, ∃ p ∈ prev ++ [r], pdEq (f p) v = true := by
        intro v hv
        rcases List.mem_cons.mp hv with hv | hv
        · subst hv
          exact ⟨r, List.mem_append.mpr (Or.inr (List.mem_singleton.mpr rfl)), pdEq_refl _⟩
        · obtain ⟨p, hp, hpv⟩ := hrep v hv
          exact ⟨p, List.mem_append.mpr (Or.inl hp), hpv⟩
      split
      · rename_i hdup
        apply ih
        · intro p hp
          rcases List.mem_append.mp hp with hp | hp
          · exact hcov p hp
          · rw [List.mem_singleton] at hp
            subst hp
            rw [List.any_eq_true] at hdup
            obtain ⟨q, hq, hrq⟩ := hdup
            obtain ⟨v, hv, hqv⟩ := hcov q hq
            exact ⟨v, hv, pdEq_trans hrq hqv⟩
        · intro v hv
          obtain ⟨p, hp, hpv⟩ := hrep v hv
          exact ⟨p, List.mem_append.mpr (Or.inl hp), hpv⟩
      · congr 1
        exact ih (f r :: seen) (prev ++ [r]) hcov' hrep'

/-- Keys of the rows kept by the dedup scan: pairwise distinct, and none
matches a previously seen key. -/
theorem get_unique_records_go_keys (f : List PyVal → PyVal) :
    ∀ (rows : List (List PyVal)) (seen : List PyVal),
      (get_unique_records_go f seen rows).Pairwise (fun a b => pdEq (f a) (f b) = false) ∧
      (∀ r ∈ get_unique_records_go f seen rows, ∀ v ∈ seen, pdEq (f r) v = false) := by
  intro rows
  induction rows with
  | nil => intro seen; simp [get_unique_records_go]
  | cons r rs ih =>
      intro seen
      rw [get_unique_records_go]
      split
      · exact ih seen
      · rename_i hnew
        rw [Bool.not_eq_true, List.any_eq_false] at hnew
        obtain ⟨hpw, hseen⟩ := ih (f r :: seen)
        refine ⟨List.Pairwise.cons ?_ hpw, ?_⟩
        · intro b hb
          have := hseen b hb (f r) (List.mem_cons_self _ _)
          rw [pdEq_symm]
          exact this
        · intro x hx v hv
          rcases List.mem_cons.mp hx with hx | hx
          · subst hx
            simpa using hnew v hv
          · exact hseen x hx v (List.mem_cons_of_mem _ hv)

/-- Every dropped row has a kept representative with a matching key. -/
theorem get_unique_records_go_complete (f : List PyVal → PyVal) :
    ∀ (rows : List (List PyVal)) (seen : List PyVal) (r : List PyVal),
      r ∈ rows → (∀ v ∈ seen, pdEq (f r) v = false) →
      ∃ r2 ∈ get_unique_records_go f seen rows, pdEq (f r) (f r2) = true := by
  intro rows
  induction rows with
  | nil => intro seen r hr; simp at hr
  | cons x rs ih =>
      intro seen r hr hsep
      rw [get_unique_records_go]
      rcases List.mem_cons.mp hr with hr | hr
      · subst hr
        have hany : (seen.any (fun v => pdEq (f r) v)) = false :=
          List.any_eq_false.mpr (fun v hv => by simp [hsep v hv])
        rw [hany]
        simp only [Bool.false_eq_true, if_false]
        exact ⟨r, List.mem_cons_self _ _, pdEq_refl _⟩
      · split
        · exact ih seen r hr hsep
        · by_cases hx : pdEq (f r) (f x) = true
          · exact ⟨x, List.mem_cons_self _ _, hx⟩
          · obtain ⟨r2, hr2, hk⟩ := ih (f x :: seen) r hr (by
              intro v hv
              rcases List.mem_cons.mp hv with hv | hv
              · subst hv
                simpa using hx
              · exact hsep v hv)
            exact ⟨r2, List.mem_cons_of_mem _ hr2, hk⟩

/-- C5: `deduplicate` (= `get_unique_records`) keeps the header, returns
a subsequence of the rows equal to the first-occurrence-wins scan of the
spec, its kept keys are pairwise distinct (each distinct key appears
exactly once), every input row has a kept representative with an equal
key, and on the table `[(k=1,v="a"),(k=2,v="b"),(k=1,v="c")]` with key
column `k` it returns `[(1,"a"),(2,"b")]`. -/
theorem C5_get_unique_records_first_wins (t : Table) (col : String) :
    (get_unique_records t col).header = t.header ∧
    (get_unique_records t col).rows.Sublist t.rows ∧
    (get_unique_records t col).rows =
      firstOccurrenceScan (fun r => getCell r (colIdx t col)) [] t.rows ∧
    (get_unique_records t col).rows.Pairwise
      (fun a b => pdEq (getCell a (colIdx t col)) (getCell b (colIdx t col)) = false) ∧
    (t.rows.all (fun r => (get_unique_records t col).rows.any
      (fun r2 => pdEq (getCell r (colIdx t col)) (getCell r2 (colIdx t col))))) = true ∧
    get_unique_records ⟨["k", "v"], [[.int 1, .str "a"], [.int 2, .str "b"], [.int 1, .str "c"]]⟩ "k" =
      ⟨["k", "v"], [[.int 1, .str "a"], [.int 2, .str "b"]]⟩ := by
  refine ⟨rfl, get_unique_records_go_sublist _ _ _, ?_, ?_, ?_, by decide⟩
  · exact get_unique_records_go_eq_scan _ _ [] [] (by simp) (by simp)
  · exact (get_unique_records_go_keys _ _ []).1
  · rw [List.all_eq_true]
    intro r hr
    obtain ⟨r2, hr2, hk⟩ := get_unique_records_go_complete _ t.rows [] r hr (by simp)
    exact List.any_eq_true.mpr ⟨r2, hr2, hk⟩

/-- When every key is a string, the number of rows the dedup scan keeps
is the number of distinct key strings not seen before. -/
theorem get_unique_records_go_length (f : List PyVal → PyVal) (g : List PyVal → String) :
    ∀ (l : List (List PyVal)) (ss : List String),
      (∀ r ∈ l, f r = .str (g r)) →
      (get_unique_records_go f (ss.map PyVal.str) l).length =
        ((l.map g).toFinset \ ss.toFinset).card := by
  intro l
  induction l with
  | nil => intro ss _; simp [get_unique_records_go]
  | cons r rs ih =>
      intro ss hg
      have hr : f r = .str (g r) := hg r (List.mem_cons_self _ _)
      have hany : ((ss.map PyVal.str).any (fun v => pdEq (f r) v)) = decide (g r ∈ ss) := by
        by_cases h : g r ∈ ss
        · rw [decide_eq_true h]
          refine List.any_eq_true.mpr ⟨.str (g r), List.mem_map.mpr ⟨g r, h, rfl⟩, ?_⟩
          rw [hr, pdEq_str]
          simp
        · rw [decide_eq_false h]
          refine List.any_eq_false.mpr ?_
          intro v hv
          obtain ⟨s, hs, rfl⟩ := List.mem_map.mp hv
          rw [hr, pdEq_str]
          simp
          intro he
          exact h (he ▸ hs)
      rw [get_unique_records_go, hany]
      by_cases h : g r ∈ ss
      · rw [if_pos (decide_eq_true h)]
        rw [ih ss (fun x hx => hg x (List.mem_cons_of_mem _ hx))]
        congr 1
        rw [List.map_cons, List.toFinset_cons]
        exact (Finset.insert_sdiff_of_mem _ (List.mem_toFinset.mpr h)).symm
      · rw [if_neg (by simp [h])]
        have : f r :: ss.map PyVal.str = (g r :: ss).map PyVal.str := by
          rw [List.map_cons, hr]
        rw [List.length_cons, this,
          ih (g r :: ss) (fun x hx => hg x (List.mem_cons_of_mem _ hx))]
        rw [List.map_cons, List.toFinset_cons, List.toFinset_cons]
        rw [Finset.sdiff_insert]
        rw [Finset.insert_sdiff_of_not_mem _ (by simpa using h)]
        set A := (rs.map g).toFinset \ ss.toFinset with hA
        by_cases hm : g r ∈ A
        · rw [Finset.insert_eq_self.mpr hm]
          have hpos : 0 < A.card := Finset.card_pos.mpr ⟨_, hm⟩
          rw [Finset.card_erase_of_mem hm]
          omega
        · rw [Finset.card_insert_of_not_mem hm, Finset.erase_eq_of_not_mem hm]

/-! ## Shape of the projected tables -/

theorem getCell_cons_zero (v : PyVal) (xs : List PyVal) : getCell (v :: xs) 0 = v := rfl

theorem getCell_append_left (r x : List PyVal) (i : Nat) (h : i < r.length) :
    getCell (r ++ x) i = getCell r i :=
  List.getD_append r x PyVal.null i h

theorem mergeData_header (nd : Table) (e : List String) (tag : String) :
    (mergeData nd e tag).header = "normalized_key" :: renameTag e tag := rfl

theorem colIdx_mergeData (nd : Table) (e : List String) (tag : String) :
    colIdx (mergeData nd e tag) "normalized_key" = 0 := by
  simp [colIdx, mergeData, List.indexOf_cons_self]

theorem mergeData_row_length (nd : Table) (e : List String) (tag : String) :
    ∀ r ∈ (mergeData nd e tag).rows, r.length = e.length + 1 := by
  intro r hr
  simp only [mergeData, selectCols, List.mem_map] at hr
  obtain ⟨r0, _, rfl⟩ := hr
  simp

theorem mergeData_rows_ne_nil (nd : Table) (e : List String) (tag : String) :
    ∀ r ∈ (mergeData nd e tag).rows, r ≠ [] := by
  intro r hr
  have := mergeData_row_length nd e tag r hr
  intro hnil
  rw [hnil] at this
  simp at this

/-- On a rectangular table, every row of `normalize_column` carries the
string produced by `normalize_value` in its `normalized_key` column. -/
theorem normalize_column_key_str (t : Table) (c : String) (ts te : Nat)
    (hrect : ∀ r ∈ t.rows, r.length = t.header.length) :
    ∀ r ∈ (normalize_column t c ts te).rows,
      ∃ s, getCell r (colIdx (normalize_column t c ts te) "normalized_key") = .str s := by
  intro r hr
  by_cases hm : "normalized_key" ∈ t.header
  · simp only [normalize_column, if_pos hm, List.mem_map] at hr
    obtain ⟨r0, hr0, rfl⟩ := hr
    have hj : t.header.indexOf "normalized_key" < t.header.length :=
      List.indexOf_lt_length.mpr hm
    have hlt : t.header.indexOf "normalized_key" < r0.length := by
      rw [hrect r0 hr0]; exact hj
    refine ⟨normalize_value (getCell r0 (colIdx t c)) ts te, ?_⟩
    have hcol : colIdx (normalize_column t c ts te) "normalized_key" =
        t.header.indexOf "normalized_key" := by
      simp [colIdx, normalize_column, if_pos hm]
    rw [hcol]
    show getCell (r0.set (t.header.indexOf "normalized_key")
      (PyVal.str (normalize_value (getCell r0 (colIdx t c)) ts te)))
      (t.header.indexOf "normalized_key") = _
    rw [getCell, List.getD_eq_getElem?_getD, List.getElem?_set_eq_of_lt _ hlt]
    rfl
  · simp only [normalize_column, if_neg hm, List.mem_map] at hr
    obtain ⟨r0, hr0, rfl⟩ := hr
    have hcol : colIdx (normalize_column t c ts te) "normalized_key" = t.header.length := by
      simp [colIdx, normalize_column, if_neg hm,
        List.indexOf_append_of_not_mem hm, List.indexOf_cons_self]
    refine ⟨normalize_value (getCell r0 (colIdx t c)) ts te, ?_⟩
    rw [hcol]
    show getCell (r0 ++ [PyVal.str (normalize_value (getCell r0 (colIdx t c)) ts te)])
      t.header.length = _
    rw [getCell, List.getD_append_right _ _ _ _ (le_of_eq (hrect r0 hr0))]
    rw [hrect r0 hr0]
    simp

/-- Key cells of a projection built by `mergeData` are the strings of
the underlying normalized table. -/
theorem mergeData_key_str (nd : Table) (e : List String) (tag : String)
    (h : ∀ r ∈ nd.rows, ∃ s, getCell r (colIdx nd "normalized_key") = .str s) :
    ∀ r ∈ (mergeData nd e tag).rows, ∃ s, getCell r 0 = .str s := by
  intro r hr
  simp only [mergeData, selectCols, List.mem_map] at hr
  obtain ⟨r0, hr0, rfl⟩ := hr
  obtain ⟨s, hs⟩ := h r0 hr0
  exact ⟨s, by simpa [getCell] using hs⟩

/-! ## The inner join: membership and per-key counts -/

theorem innerMergeRows_count (p1 p2 : List (List PyVal)) (k : PyVal)
    (h2 : ∀ r ∈ p2, r ≠ []) :
    ((p2.flatMap (fun rl => ((p1.filter (fun rr => pdEq (getCell rl 0) (getCell rr 0))).map
        (fun rr => rl ++ rr.eraseIdx 0)))).filter
      (fun r => pdEq (getCell r 0) k)).length =
    (p2.filter (fun r => pdEq (getCell r 0) k)).length *
    (p1.filter (fun r => pdEq (getCell r 0) k)).length := by
  induction p2 with
  | nil => simp
  | cons rl rest ih =>
      have hnil : rl ≠ [] := h2 rl (List.mem_cons_self _ _)
      have hlen : 0 < rl.length := List.length_pos.mpr hnil
      have hkey : ∀ rr : List PyVal, getCell (rl ++ rr.eraseIdx 0) 0 = getCell rl 0 :=
        fun rr => getCell_append_left _ _ _ hlen
      have ih' := ih (fun r hr => h2 r (List.mem_cons_of_mem _ hr))
      rw [List.flatMap_cons, List.filter_append, List.length_append, ih']
      by_cases hb : pdEq (getCell rl 0) k = true
      · have hchunk :
            (((p1.filter (fun rr => pdEq (getCell rl 0) (getCell rr 0))).map
              (fun rr => rl ++ rr.eraseIdx 0)).filter
                (fun r => pdEq (getCell r 0) k)).length =
            (p1.filter (fun rr => pdEq (getCell rr 0) k)).length := by
          rw [List.filter_map]
          rw [List.length_map]
          have hin : (p1.filter (fun rr => pdEq (getCell rl 0) (getCell rr 0))).filter
              ((fun r => pdEq (getCell r 0) k) ∘ (fun rr => rl ++ rr.eraseIdx 0)) =
              p1.filter (fun rr => pdEq (getCell rl 0) (getCell rr 0)) := by
            refine List.filter_eq_self.mpr ?_
            intro rr hrr
            have hq := (List.mem_filter.mp hrr).2
            show pdEq (getCell (rl ++ rr.eraseIdx 0) 0) k = true
            rw [hkey rr]
            exact hb
          rw [hin]
          congr 1
          refine List.filter_congr ?_
          intro rr hrr
          rw [Bool.eq_iff_iff]
          constructor
          · intro hq
            exact pdEq_trans (by rw [pdEq_symm]; exact hq) hb
          · intro ht
            exact pdEq_trans hb (by rw [pdEq_symm]; exact ht)
        rw [hchunk]
        simp only [List.filter_cons, hb, if_true, List.length_cons]
        ring
      · have hchunk :
            ((p1.filter (fun rr => pdEq (getCell rl 0) (getCell rr 0))).map
              (fun rr => rl ++ rr.eraseIdx 0)).filter
                (fun r => pdEq (getCell r 0) k) = [] := by
          refine List.filter_eq_nil_iff.mpr ?_
          intro r hr
          obtain ⟨rr, _, rfl⟩ := List.mem_map.mp hr
          rw [hkey rr]
          simpa using hb
        rw [hchunk]
        have hb' : pdEq (getCell rl 0) k = false := by simpa using hb
        simp only [List.filter_cons, hb', Bool.false_eq_true, if_false, List.length_nil]
        omega

/-- The efficient trim offsets of lines 379-388: the chosen bound when
trimming is enabled, else 0. -/
def effTrimStart (tr : TrimOptions) : Nat := if tr.enable then tr.trim_start else 0

def effTrimEnd (tr : TrimOptions) : Nat := if tr.enable then tr.trim_end else 0

/-- The full (pre-dedup) dataset-1 projection of lines 394-399. -/
def proj1Of (d1 : Table) (c1 : String) (e1 : List String) (tr1 : TrimOptions) : Table :=
  mergeData (normalize_column d1 c1 (effTrimStart tr1) (effTrimEnd tr1)) e1 "_dataset1"

/-- The full (pre-dedup) dataset-2 projection of lines 401-406. -/
def proj2Of (d2 : Table) (c2 : String) (e2 : List String) (tr2 : TrimOptions) : Table :=
  mergeData (normalize_column d2 c2 (effTrimStart tr2) (effTrimEnd tr2)) e2 "_dataset2"


theorem colIdx_innerMerge_mergeData (nd : Table) (e : List String) (tag : String)
    (right : Table) :
    colIdx (innerMerge (mergeData nd e tag) right) "normalized_key" = 0 := by
  show (("normalized_key" :: renameTag e tag) ++
      right.header.eraseIdx (colIdx right "normalized_key")).indexOf "normalized_key" = 0
  rw [List.cons_append, List.indexOf_cons_self]

/-- C6: `matches` is the inner equi-join on `normalized_key` of the full
pre-dedup projections — dataset-2 projection on the left, dataset-1
projection on the right — and for every key value the number of match
rows with that key is the product of the two projections' row counts for
that key (the Cartesian sub-product for duplicated keys). -/
theorem C6_matches_prededup_join (d1 : Table) (c1 : String) (e1 : List String)
    (tr1 : TrimOptions) (d2 : Table) (c2 : String) (e2 : List String)
    (tr2 : TrimOptions) (k : PyVal) :
    (compareRun d1 c1 e1 tr1 d2 c2 e2 tr2).matchesDf =
      innerMerge (proj2Of d2 c2 e2 tr2) (proj1Of d1 c1 e1 tr1) ∧
    ((compareRun d1 c1 e1 tr1 d2 c2 e2 tr2).matchesDf.rows.filter
        (fun r => pdEq (getCell r
          (colIdx (compareRun d1 c1 e1 tr1 d2 c2 e2 tr2).matchesDf "normalized_key")) k)).length =
      ((proj2Of d2 c2 e2 tr2).rows.filter
          (fun r => pdEq (getCell r (colIdx (proj2Of d2 c2 e2 tr2) "normalized_key")) k)).length *
        ((proj1Of d1 c1 e1 tr1).rows.filter
          (fun r => pdEq (getCell r (colIdx (proj1Of d1 c1 e1 tr1) "normalized_key")) k)).length := by
  have hM : (compareRun d1 c1 e1 tr1 d2 c2 e2 tr2).matchesDf =
      innerMerge (proj2Of d2 c2 e2 tr2) (proj1Of d1 c1 e1 tr1) := rfl
  refine ⟨hM, ?_⟩
  rw [hM]
  have hci : colIdx (innerMerge (proj2Of d2 c2 e2 tr2) (proj1Of d1 c1 e1 tr1))
      "normalized_key" = 0 := colIdx_innerMerge_mergeData _ _ _ _
  have hc2 : colIdx (proj2Of d2 c2 e2 tr2) "normalized_key" = 0 := colIdx_mergeData _ _ _
  have hc1 : colIdx (proj1Of d1 c1 e1 tr1) "normalized_key" = 0 := colIdx_mergeData _ _ _
  rw [hci, hc2, hc1]
  have hrows : (innerMerge (proj2Of d2 c2 e2 tr2) (proj1Of d1 c1 e1 tr1)).rows =
      (proj2Of d2 c2 e2 tr2).rows.flatMap (fun rl =>
        (((proj1Of d1 c1 e1 tr1).rows.filter
            (fun rr => pdEq (getCell rl 0) (getCell rr 0))).map
          (fun rr => rl ++ rr.eraseIdx 0))) := by
    show (proj2Of d2 c2 e2 tr2).rows.flatMap (fun rl =>
        (((proj1Of d1 c1 e1 tr1).rows.filter
            (fun rr => pdEq (getCell rl (colIdx (proj2Of d2 c2 e2 tr2) "normalized_key"))
              (getCell rr (colIdx (proj1Of d1 c1 e1 tr1) "normalized_key")))).map
          (fun rr => rl ++ rr.eraseIdx (colIdx (proj1Of d1 c1 e1 tr1) "normalized_key")))) = _
    rw [hc1, hc2]
  rw [hrows]
  exact innerMergeRows_count (proj1Of d1 c1 e1 tr1).rows (proj2Of d2 c2 e2 tr2).rows k
    (mergeData_rows_ne_nil _ _ _)

/-! ## Column reordering by name is the identity on a well-formed table -/

theorem selectCols_self_rows (cols : List String) :
    ∀ (r : List PyVal), cols.Nodup → r.length = cols.length →
      cols.map (fun c => getCell r (cols.indexOf c)) = r := by
  induction cols with
  | nil =>
      intro r _ hlen
      cases r with
      | nil => rfl
      | cons x xs => simp at hlen
  | cons c cs ih =>
      intro r hnd hlen
      cases r with
      | nil => simp at hlen
      | cons x xs =>
          rw [List.map_cons]
          have hnotin : c ∉ cs := (List.nodup_cons.mp hnd).1
          congr 1
          · rw [List.indexOf_cons_self]
            rfl
          · have hmap : cs.map (fun c2 => getCell (x :: xs) ((c :: cs).indexOf c2)) =
                cs.map (fun c2 => getCell xs (cs.indexOf c2)) := by
              refine List.map_congr_left ?_
              intro c2 hc2
              have hne : c ≠ c2 := fun h => hnotin (h ▸ hc2)
              rw [List.indexOf_cons_ne _ hne]
              rfl
            rw [hmap]
            exact ih xs (List.nodup_cons.mp hnd).2 (by simpa using hlen)

theorem selectCols_header_self (t : Table) (hnd : t.header.Nodup)
    (hlen : ∀ r ∈ t.rows, r.length = t.header.length) :
    selectCols t t.header = t := by
  obtain ⟨hd, rows⟩ := t
  simp only [selectCols]
  congr 1
  have hpt : ∀ r ∈ rows, hd.map (fun c => getCell r (colIdx ⟨hd, rows⟩ c)) = r :=
    fun r hr => selectCols_self_rows hd r hnd (hlen r hr)
  calc rows.map (fun r => hd.map (fun c => getCell r (colIdx ⟨hd, rows⟩ c)))
      = rows.map id := List.map_congr_left (fun r hr => hpt r hr)
    _ = rows := List.map_id rows

/-- The `non_matches` table (lines 416-425) in closed form, on projections with
distinct output column names. -/
theorem nonMatchesOf_eq (p1 p2 : Table) (e1R e2R : List String)
    (hhd : p2.header = "normalized_key" :: e2R)
    (hnd : ("normalized_key" :: (e2R ++ e1R)).Nodup)
    (hlen : ∀ r ∈ p2.rows, r.length = e2R.length + 1) :
    nonMatchesOf p1 p2 e1R e2R =
      ⟨"normalized_key" :: (e2R ++ e1R),
       (p2.rows.filter (fun r => !((keyCells p1).any
         (fun v => pdEq (getCell r (colIdx p2 "normalized_key")) v)))).map
         (fun r => r ++ List.replicate e1R.length npNan)⟩ := by
  have horder : p2.header ++ e1R = "normalized_key" :: (e2R ++ e1R) := by
    rw [hhd, List.cons_append]
  have hnd2 : (p2.header ++ e1R).Nodup := by rw [horder]; exact hnd
  have hlen2 : ∀ r ∈ (p2.rows.filter (fun r => !((keyCells p1).any
      (fun v => pdEq (getCell r (colIdx p2 "normalized_key")) v)))).map
      (fun r => r ++ List.replicate e1R.length npNan),
      r.length = (p2.header ++ e1R).length := by
    intro r hr
    simp only [List.mem_map] at hr
    obtain ⟨r0, hr0, rfl⟩ := hr
    have hr0m : r0 ∈ p2.rows := (List.mem_filter.mp hr0).1
    have h0 := hlen r0 hr0m
    simp only [List.length_append, List.length_replicate, h0, hhd, List.length_cons]
  have hsel := selectCols_header_self
    ⟨p2.header ++ e1R, (p2.rows.filter (fun r => !((keyCells p1).any
      (fun v => pdEq (getCell r (colIdx p2 "normalized_key")) v)))).map
      (fun r => r ++ List.replicate e1R.length npNan)⟩ hnd2 hlen2
  show selectCols
    ⟨p2.header ++ e1R, (p2.rows.filter (fun r => !((keyCells p1).any
      (fun v => pdEq (getCell r (colIdx p2 "normalized_key")) v)))).map
      (fun r => r ++ List.replicate e1R.length npNan)⟩
    ("normalized_key" :: (e2R ++ e1R)) = _
  rw [← horder]
  exact hsel

/-- C7: `non_matches` consists exactly of the rows of table2's full
projection whose `normalized_key` does not appear (by the `isin` test)
among the keys of table1's full projection, with the dataset-1 extra
columns appended as `np.nan`, and its columns are ordered
`[normalized_key, extras2_renamed..., extras1_renamed...]` (stated for
comparisons whose output column names are distinct, as the UI
guarantees). -/
theorem C7_non_matches_rows (d1 : Table) (c1 : String) (e1 : List String)
    (tr1 : TrimOptions) (d2 : Table) (c2 : String) (e2 : List String) (tr2 : TrimOptions)
    (hnd : ("normalized_key" :: (renameTag e2 "_dataset2" ++ renameTag e1 "_dataset1")).Nodup) :
    (compareRun d1 c1 e1 tr1 d2 c2 e2 tr2).non_matches.header =
      "normalized_key" :: (renameTag e2 "_dataset2" ++ renameTag e1 "_dataset1") ∧
    (compareRun d1 c1 e1 tr1 d2 c2 e2 tr2).non_matches.rows =
      ((proj2Of d2 c2 e2 tr2).rows.filter (fun r => !((keyCells (proj1Of d1 c1 e1 tr1)).any
          (fun v => pdEq (getCell r (colIdx (proj2Of d2 c2 e2 tr2) "normalized_key")) v)))).map
        (fun r => r ++ List.replicate (renameTag e1 "_dataset1").length npNan) := by
  have hrun : (compareRun d1 c1 e1 tr1 d2 c2 e2 tr2).non_matches =
      nonMatchesOf (proj1Of d1 c1 e1 tr1) (proj2Of d2 c2 e2 tr2)
        (renameTag e1 "_dataset1") (renameTag e2 "_dataset2") := rfl
  have hlen2 : ∀ r ∈ (proj2Of d2 c2 e2 tr2).rows,
      r.length = (renameTag e2 "_dataset2").length + 1 := by
    intro r hr
    have := mergeData_row_length _ _ _ r hr
    simpa [renameTag] using this
  have heq := nonMatchesOf_eq (proj1Of d1 c1 e1 tr1) (proj2Of d2 c2 e2 tr2)
    (renameTag e1 "_dataset1") (renameTag e2 "_dataset2") rfl hnd hlen2
  rw [hrun, heq]
  exact ⟨rfl, rfl⟩

def table1C7 : Table := ⟨["k1", "a"], [[.str "1", .str "x"]]⟩

def table2C7 : Table := ⟨["k2", "b"], [[.str "1", .str "y"], [.str "2", .str "z"]]⟩

/-- Instance of `C7_non_matches_rows` at a concrete comparison (one matching key,
one non-matching key, one extra column on each side). -/
theorem C7_non_matches_rows_witness :
    (compareRun table1C7 "k1" ["a"] noTrimOpt table2C7 "k2" ["b"] noTrimOpt).non_matches.header =
      "normalized_key" :: (renameTag ["b"] "_dataset2" ++ renameTag ["a"] "_dataset1") ∧
    (compareRun table1C7 "k1" ["a"] noTrimOpt table2C7 "k2" ["b"] noTrimOpt).non_matches.rows =
      ((proj2Of table2C7 "k2" ["b"] noTrimOpt).rows.filter
          (fun r => !((keyCells (proj1Of table1C7 "k1" ["a"] noTrimOpt)).any
            (fun v => pdEq (getCell r
              (colIdx (proj2Of table2C7 "k2" ["b"] noTrimOpt) "normalized_key")) v)))).map
        (fun r => r ++ List.replicate (renameTag ["a"] "_dataset1").length npNan) :=
  C7_non_matches_rows table1C7 "k1" ["a"] noTrimOpt table2C7 "k2" ["b"] noTrimOpt (by decide)

/-! ## Statistics -/

theorem length_astype_accents (t : Table) :
    (astypeStr (applyRemoveAccents t)).rows.length = t.rows.length := by
  simp [astypeStr, applyRemoveAccents]

/-- C8: the six statistics equations, each against an independent
recomputation: total row count of the raw table2, dedup of the raw
table2 on its key column, dedups of `matches` / `non_matches` on
`normalized_key`, and the two count differences (Python integer
subtraction). -/
theorem C8_statistics_equations (d1 : Table) (c1 : String) (e1 : List String)
    (tr1 : TrimOptions) (d2 : Table) (c2 : String) (e2 : List String) (tr2 : TrimOptions) :
    (compareRun d1 c1 e1 tr1 d2 c2 e2 tr2).statistics.total_records = (d2.rows.length : Int) ∧
    (compareRun d1 c1 e1 tr1 d2 c2 e2 tr2).statistics.total_unique =
      ((get_unique_records d2 c2).rows.length : Int) ∧
    (compareRun d1 c1 e1 tr1 d2 c2 e2 tr2).statistics.unique_matches =
      ((get_unique_records (compareRun d1 c1 e1 tr1 d2 c2 e2 tr2).matchesDf
        "normalized_key").rows.length : Int) ∧
    (compareRun d1 c1 e1 tr1 d2 c2 e2 tr2).statistics.unique_non_matches =
      ((get_unique_records (compareRun d1 c1 e1 tr1 d2 c2 e2 tr2).non_matches
        "normalized_key").rows.length : Int) ∧
    (compareRun d1 c1 e1 tr1 d2 c2 e2 tr2).statistics.duplicate_matches =
      ((compareRun d1 c1 e1 tr1 d2 c2 e2 tr2).matchesDf.rows.length : Int) -
        ((get_unique_records (compareRun d1 c1 e1 tr1 d2 c2 e2 tr2).matchesDf
          "normalized_key").rows.length : Int) ∧
    (compareRun d1 c1 e1 tr1 d2 c2 e2 tr2).statistics.duplicate_non_matches =
      ((compareRun d1 c1 e1 tr1 d2 c2 e2 tr2).non_matches.rows.length : Int) -
        ((get_unique_records (compareRun d1 c1 e1 tr1 d2 c2 e2 tr2).non_matches
          "normalized_key").rows.length : Int) := by
  refine ⟨rfl, rfl, ?_, ?_, ?_, ?_⟩
  · show ((astypeStr (applyRemoveAccents (get_unique_records
      (compareRun d1 c1 e1 tr1 d2 c2 e2 tr2).matchesDf "normalized_key"))).rows.length : Int) = _
    rw [length_astype_accents]
  · show ((astypeStr (applyRemoveAccents (get_unique_records
      (compareRun d1 c1 e1 tr1 d2 c2 e2 tr2).non_matches "normalized_key"))).rows.length : Int) = _
    rw [length_astype_accents]
  · show ((compareRun d1 c1 e1 tr1 d2 c2 e2 tr2).matchesDf.rows.length : Int) -
      ((astypeStr (applyRemoveAccents (get_unique_records
        (compareRun d1 c1 e1 tr1 d2 c2 e2 tr2).matchesDf "normalized_key"))).rows.length : Int) = _
    rw [length_astype_accents]
  · show ((compareRun d1 c1 e1 tr1 d2 c2 e2 tr2).non_matches.rows.length : Int) -
      ((astypeStr (applyRemoveAccents (get_unique_records
        (compareRun d1 c1 e1 tr1 d2 c2 e2 tr2).non_matches "normalized_key"))).rows.length : Int) = _
    rw [length_astype_accents]

/-- C4 (amended): every cell of the returned `unique_matches` /
`unique_non_matches` is the corresponding deduplicated cell passed
through `remove_accents` and then rendered as text; on a string cell
`remove_accents` performs NFKD compatibility decomposition followed by
dropping every non-ASCII code point (which removes combining marks and
keeps ASCII base letters — `"José"` becomes `"Jose"` — but also drops
non-ASCII base letters), and it leaves `None`, ints and floats (the
`TypeError` fallback path) unchanged. -/
theorem C4_accent_stripping_amended (d1 : Table) (c1 : String) (e1 : List String)
    (tr1 : TrimOptions) (d2 : Table) (c2 : String) (e2 : List String) (tr2 : TrimOptions) :
    (compareRun d1 c1 e1 tr1 d2 c2 e2 tr2).unique_matches.rows =
      (get_unique_records (compareRun d1 c1 e1 tr1 d2 c2 e2 tr2).matchesDf
        "normalized_key").rows.map
          (fun r => r.map (fun v => PyVal.str (pyStr (remove_accents v)))) ∧
    (compareRun d1 c1 e1 tr1 d2 c2 e2 tr2).unique_non_matches.rows =
      (get_unique_records (compareRun d1 c1 e1 tr1 d2 c2 e2 tr2).non_matches
        "normalized_key").rows.map
          (fun r => r.map (fun v => PyVal.str (pyStr (remove_accents v)))) ∧
    remove_accents (.str "José") = .str "Jose" ∧
    (∀ s : String, remove_accents (.str s) =
      .str (String.mk (asciiIgnore (s.toList.flatMap nfkdChar)))) ∧
    remove_accents PyVal.null = PyVal.null ∧
    (∀ n : Int, remove_accents (.int n) = .int n) ∧
    (∀ f : PyFloat, remove_accents (.float f) = .float f) := by
  refine ⟨?_, ?_, by decide, fun s => rfl, rfl, fun n => rfl, fun f => rfl⟩
  · show (astypeStr (applyRemoveAccents (get_unique_records
      (compareRun d1 c1 e1 tr1 d2 c2 e2 tr2).matchesDf "normalized_key"))).rows = _
    simp [astypeStr, applyRemoveAccents, List.map_map, Function.comp_def]
  · show (astypeStr (applyRemoveAccents (get_unique_records
      (compareRun d1 c1 e1 tr1 d2 c2 e2 tr2).non_matches "normalized_key"))).rows = _
    simp [astypeStr, applyRemoveAccents, List.map_map, Function.comp_def]

/-! ## Final text rendering -/

def isStrB : PyVal → Bool
  | .str _ => true
  | _ => false

def allCellsStr (t : Table) : Bool := t.rows.all (fun r => r.all isStrB)

theorem allCellsStr_astypeStr (t : Table) : allCellsStr (astypeStr t) = true := by
  rw [allCellsStr, List.all_eq_true]
  intro r hr
  simp only [astypeStr, List.mem_map] at hr
  obtain ⟨r0, _, rfl⟩ := hr
  rw [List.all_eq_true]
  intro v hv
  obtain ⟨w, _, rfl⟩ := List.mem_map.mp hv
  rfl

/-- C9: after the `astype(str)` render step, every cell of the returned
`unique_matches` and `unique_non_matches` is a string (so none is null),
and in `unique_non_matches` every cell in the appended dataset-1 extra
columns — `np.nan` before rendering — is the literal text `"nan"`
(stated for comparisons whose output column names are distinct, as the
UI guarantees). -/
theorem C9_cells_rendered_as_text (d1 : Table) (c1 : String) (e1 : List String)
    (tr1 : TrimOptions) (d2 : Table) (c2 : String) (e2 : List String) (tr2 : TrimOptions)
    (hnd : ("normalized_key" :: (renameTag e2 "_dataset2" ++ renameTag e1 "_dataset1")).Nodup) :
    allCellsStr (compareRun d1 c1 e1 tr1 d2 c2 e2 tr2).unique_matches = true ∧
    allCellsStr (compareRun d1 c1 e1 tr1 d2 c2 e2 tr2).unique_non_matches = true ∧
    ((compareRun d1 c1 e1 tr1 d2 c2 e2 tr2).unique_non_matches.rows.all
      (fun r => (r.drop (e2.length + 1)).all (fun v => v == PyVal.str "nan"))) = true := by
  refine ⟨allCellsStr_astypeStr _, allCellsStr_astypeStr _, ?_⟩
  rw [List.all_eq_true]
  intro r hr
  have hrows : (compareRun d1 c1 e1 tr1 d2 c2 e2 tr2).unique_non_matches.rows =
      (get_unique_records (compareRun d1 c1 e1 tr1 d2 c2 e2 tr2).non_matches
        "normalized_key").rows.map
        (fun r => r.map (fun v => PyVal.str (pyStr (remove_accents v)))) := by
    show (astypeStr (applyRemoveAccents (get_unique_records
      (compareRun d1 c1 e1 tr1 d2 c2 e2 tr2).non_matches "normalized_key"))).rows = _
    simp [astypeStr, applyRemoveAccents, List.map_map, Function.comp_def]
  rw [hrows] at hr
  obtain ⟨r0, hr0, rfl⟩ := List.mem_map.mp hr
  have hr0nm : r0 ∈ (compareRun d1 c1 e1 tr1 d2 c2 e2 tr2).non_matches.rows :=
    (get_unique_records_go_sublist _ _ _).mem hr0
  have hlen2 : ∀ x ∈ (proj2Of d2 c2 e2 tr2).rows,
      x.length = (renameTag e2 "_dataset2").length + 1 := by
    intro x hx
    have := mergeData_row_length _ _ _ x hx
    simpa [renameTag] using this
  have heq := nonMatchesOf_eq (proj1Of d1 c1 e1 tr1) (proj2Of d2 c2 e2 tr2)
    (renameTag e1 "_dataset1") (renameTag e2 "_dataset2") rfl hnd hlen2
  have hrun : (compareRun d1 c1 e1 tr1 d2 c2 e2 tr2).non_matches =
      nonMatchesOf (proj1Of d1 c1 e1 tr1) (proj2Of d2 c2 e2 tr2)
        (renameTag e1 "_dataset1") (renameTag e2 "_dataset2") := rfl
  rw [hrun, heq] at hr0nm
  obtain ⟨r2, hr2, rfl⟩ := List.mem_map.mp hr0nm
  have hr2mem : r2 ∈ (proj2Of d2 c2 e2 tr2).rows := (List.mem_filter.mp hr2).1
  have hr2len : r2.length = e2.length + 1 := by
    have := mergeData_row_length _ _ _ r2 hr2mem
    simpa [renameTag] using this
  rw [← List.map_drop]
  rw [List.drop_left' hr2len]
  rw [List.map_replicate]
  rw [List.all_eq_true]
  intro v hv
  rw [List.eq_of_mem_replicate hv]
  decide

def table1C9 : Table := ⟨["k1", "a"], [[.str "1", .str "x"]]⟩

def table2C9 : Table := ⟨["k2", "b"], [[.str "1", .str "y"], [.str "2", .str "z"]]⟩

/-- Instance of `C9_cells_rendered_as_text` at a concrete comparison with one extra
column per side and a non-matching table2 row. -/
theorem C9_cells_rendered_as_text_witness :
    allCellsStr (compareRun table1C9 "k1" ["a"] noTrimOpt
      table2C9 "k2" ["b"] noTrimOpt).unique_matches = true ∧
    allCellsStr (compareRun table1C9 "k1" ["a"] noTrimOpt
      table2C9 "k2" ["b"] noTrimOpt).unique_non_matches = true ∧
    ((compareRun table1C9 "k1" ["a"] noTrimOpt
      table2C9 "k2" ["b"] noTrimOpt).unique_non_matches.rows.all
        (fun r => (r.drop (["b"].length + 1)).all (fun v => v == PyVal.str "nan"))) = true :=
  C9_cells_rendered_as_text table1C9 "k1" ["a"] noTrimOpt table2C9 "k2" ["b"] noTrimOpt
    (by decide)

/-! ## Key partition between matches and non-matches -/

/-- The string carried by a (string) cell. -/
def strOf : PyVal → String
  | .str s => s
  | _ => ""

/-- The `normalized_key` column of a table, read as strings. -/
def keyStrs (t : Table) : List String :=
  t.rows.map (fun r => strOf (getCell r (colIdx t "normalized_key")))

theorem innerMerge_rows_eq (left right : Table) :
    (innerMerge left right).rows = left.rows.flatMap (fun rl =>
      ((right.rows.filter (fun rr => pdEq (getCell rl (colIdx left "normalized_key"))
          (getCell rr (colIdx right "normalized_key")))).map
        (fun rr => rl ++ rr.eraseIdx (colIdx right "normalized_key")))) := rfl

theorem innerMerge_keyStrs_mem (p1 p2 : Table) (k : String)
    (h1 : ∀ r ∈ p1.rows, ∃ s, getCell r 0 = .str s)
    (h2 : ∀ r ∈ p2.rows, ∃ s, getCell r 0 = .str s)
    (hne2 : ∀ r ∈ p2.rows, r ≠ [])
    (hc1 : colIdx p1 "normalized_key" = 0)
    (hc2 : colIdx p2 "normalized_key" = 0)
    (hcM : colIdx (innerMerge p2 p1) "normalized_key" = 0) :
    k ∈ keyStrs (innerMerge p2 p1) ↔ (k ∈ keyStrs p2 ∧ k ∈ keyStrs p1) := by
  rw [keyStrs, keyStrs, keyStrs, hcM, hc1, hc2, innerMerge_rows_eq, hc1, hc2]
  constructor
  · intro hk
    obtain ⟨row, hrow, hval⟩ := List.mem_map.mp hk
    obtain ⟨rl, hrl, hrow2⟩ := List.mem_flatMap.mp hrow
    obtain ⟨rr, hrr, rfl⟩ := List.mem_map.mp hrow2
    have hrrm : rr ∈ p1.rows := (List.mem_filter.mp hrr).1
    have hpq : pdEq (getCell rl 0) (getCell rr 0) = true := (List.mem_filter.mp hrr).2
    obtain ⟨s2, hs2⟩ := h2 rl hrl
    obtain ⟨s1, hs1⟩ := h1 rr hrrm
    have hkey : getCell (rl ++ rr.eraseIdx 0) 0 = getCell rl 0 :=
      getCell_append_left _ _ _ (List.length_pos.mpr (hne2 rl hrl))
    rw [hkey, hs2] at hval
    have hseq : s2 = s1 := by
      rw [hs2, hs1, pdEq_str] at hpq
      simpa using hpq
    constructor
    · exact List.mem_map.mpr ⟨rl, hrl, by rw [hs2]; exact hval⟩
    · exact List.mem_map.mpr ⟨rr, hrrm, by rw [hs1, ← hseq]; exact hval⟩
  · rintro ⟨hk2, hk1⟩
    obtain ⟨rl, hrl, hv2⟩ := List.mem_map.mp hk2
    obtain ⟨rr, hrr, hv1⟩ := List.mem_map.mp hk1
    obtain ⟨s2, hs2⟩ := h2 rl hrl
    obtain ⟨s1, hs1⟩ := h1 rr hrr
    rw [hs2] at hv2
    rw [hs1] at hv1
    have hpq : pdEq (getCell rl 0) (getCell rr 0) = true := by
      rw [hs2, hs1, pdEq_str]
      simp [strOf] at hv2 hv1
      rw [hv2, hv1]
      simp
    refine List.mem_map.mpr ⟨rl ++ rr.eraseIdx 0, ?_, ?_⟩
    · exact List.mem_flatMap.mpr ⟨rl, hrl,
        List.mem_map.mpr ⟨rr, List.mem_filter.mpr ⟨hrr, hpq⟩, rfl⟩⟩
    · have hkey : getCell (rl ++ rr.eraseIdx 0) 0 = getCell rl 0 :=
        getCell_append_left _ _ _ (List.length_pos.mpr (hne2 rl hrl))
      rw [hkey, hs2]
      exact hv2

theorem keyStrs_mk (hd : List String) (rows : List (List PyVal)) (L : List String)
    (hhd : hd = "normalized_key" :: L) :
    keyStrs ⟨hd, rows⟩ = rows.map (fun r => strOf (getCell r 0)) := by
  rw [keyStrs]
  have hc : colIdx ⟨hd, rows⟩ "normalized_key" = 0 := by
    show hd.indexOf "normalized_key" = 0
    rw [hhd, List.indexOf_cons_self]
  rw [hc]

theorem nonMatches_keyStrs_mem (p1 p2 : Table) (e1R e2R : List String) (k : String)
    (h1 : ∀ r ∈ p1.rows, ∃ s, getCell r 0 = .str s)
    (h2 : ∀ r ∈ p2.rows, ∃ s, getCell r 0 = .str s)
    (hne2 : ∀ r ∈ p2.rows, r ≠ [])
    (hc1 : colIdx p1 "normalized_key" = 0)
    (hc2 : colIdx p2 "normalized_key" = 0)
    (hhd : p2.header = "normalized_key" :: e2R)
    (hnd : ("normalized_key" :: (e2R ++ e1R)).Nodup)
    (hlen : ∀ r ∈ p2.rows, r.length = e2R.length + 1) :
    k ∈ keyStrs (nonMatchesOf p1 p2 e1R e2R) ↔ (k ∈ keyStrs p2 ∧ k ∉ keyStrs p1) := by
  rw [nonMatchesOf_eq p1 p2 e1R e2R hhd hnd hlen, keyStrs_mk _ _ (e2R ++ e1R) rfl]
  have hkp2 : keyStrs p2 = p2.rows.map (fun r => strOf (getCell r 0)) := by
    rw [keyStrs, hc2]
  rw [hkp2]
  constructor
  · intro hk
    obtain ⟨row, hrow, hval⟩ := List.mem_map.mp hk
    obtain ⟨r2, hr2f, rfl⟩ := List.mem_map.mp hrow
    have hr2 : r2 ∈ p2.rows := (List.mem_filter.mp hr2f).1
    have hP := (List.mem_filter.mp hr2f).2
    obtain ⟨s2, hs2⟩ := h2 r2 hr2
    have hkey : getCell (r2 ++ List.replicate e1R.length npNan) 0 = getCell r2 0 :=
      getCell_append_left _ _ _ (List.length_pos.mpr (hne2 r2 hr2))
    rw [hkey] at hval
    refine ⟨List.mem_map.mpr ⟨r2, hr2, hval⟩, ?_⟩
    intro hk1
    rw [keyStrs, hc1] at hk1
    obtain ⟨rr, hrr, hv1⟩ := List.mem_map.mp hk1
    obtain ⟨s1, hs1⟩ := h1 rr hrr
    have hany : (keyCells p1).any
        (fun v => pdEq (getCell r2 (colIdx p2 "normalized_key")) v) = false := by
      simpa using hP
    rw [hc2, List.any_eq_false] at hany
    have hmem : getCell rr 0 ∈ keyCells p1 := by
      rw [keyCells, hc1]
      exact List.mem_map.mpr ⟨rr, hrr, rfl⟩
    refine hany _ hmem ?_
    rw [hs2, hs1, pdEq_str]
    rw [hs2] at hval
    rw [hs1] at hv1
    simp only [strOf] at hval hv1
    rw [hval, hv1]
    simp
  · rintro ⟨hk2, hk1⟩
    obtain ⟨r2, hr2, hv2⟩ := List.mem_map.mp hk2
    obtain ⟨s2, hs2⟩ := h2 r2 hr2
    have hP : (!(keyCells p1).any
        (fun v => pdEq (getCell r2 (colIdx p2 "normalized_key")) v)) = true := by
      rw [hc2]
      rw [Bool.not_eq_true']
      rw [List.any_eq_false]
      intro v hv
      rw [keyCells, hc1] at hv
      obtain ⟨rr, hrr, rfl⟩ := List.mem_map.mp hv
      obtain ⟨s1, hs1⟩ := h1 rr hrr
      rw [hs2, hs1, pdEq_str]
      simp only [decide_eq_true_eq]
      intro heq
      apply hk1
      rw [keyStrs, hc1]
      refine List.mem_map.mpr ⟨rr, hrr, ?_⟩
      rw [hs1, ← heq]
      rw [hs2] at hv2
      simpa [strOf] using hv2
    refine List.mem_map.mpr ⟨r2 ++ List.replicate e1R.length npNan,
      List.mem_map.mpr ⟨r2, List.mem_filter.mpr ⟨hr2, hP⟩, rfl⟩, ?_⟩
    rw [getCell_append_left _ _ _ (List.length_pos.mpr (hne2 r2 hr2))]
    exact hv2

theorem get_unique_records_length_toFinset (t : Table)
    (hc : colIdx t "normalized_key" = 0)
    (hstr : ∀ r ∈ t.rows, ∃ s, getCell r 0 = .str s) :
    (get_unique_records t "normalized_key").rows.length = (keyStrs t).toFinset.card := by
  show (get_unique_records_go (fun r => getCell r (colIdx t "normalized_key"))
    [] t.rows).length = _
  rw [hc]
  have hg : ∀ r ∈ t.rows, (fun r => getCell r 0) r =
      PyVal.str ((fun r => strOf (getCell r 0)) r) := by
    intro r hr
    obtain ⟨s, hs⟩ := hstr r hr
    simp only [hs]
    rfl
  have hlen := get_unique_records_go_length (fun r => getCell r 0)
    (fun r => strOf (getCell r 0)) t.rows [] hg
  simpa [keyStrs, hc] using hlen

/-- C10: every distinct normalized key of table2's projection lands in
exactly one of `matches` / `non_matches` — in `matches` precisely when it
also occurs in table1's projection, in `non_matches` precisely when it
does not — and consequently `unique_matches + unique_non_matches` equals
the number of distinct normalized keys of table2's projection (stated
for rectangular input tables and distinct output column names, as pandas
and the UI guarantee). -/
theorem C10_key_partition (d1 : Table) (c1 : String) (e1 : List String)
    (tr1 : TrimOptions) (d2 : Table) (c2 : String) (e2 : List String) (tr2 : TrimOptions)
    (hr1 : ∀ r ∈ d1.rows, r.length = d1.header.length)
    (hr2 : ∀ r ∈ d2.rows, r.length = d2.header.length)
    (hnd : ("normalized_key" :: (renameTag e2 "_dataset2" ++ renameTag e1 "_dataset1")).Nodup) :
    ((keyStrs (proj2Of d2 c2 e2 tr2)).all (fun k =>
      (decide (k ∈ keyStrs (compareRun d1 c1 e1 tr1 d2 c2 e2 tr2).matchesDf) ==
        decide (k ∈ keyStrs (proj1Of d1 c1 e1 tr1))) &&
      (decide (k ∈ keyStrs (compareRun d1 c1 e1 tr1 d2 c2 e2 tr2).non_matches) ==
        !decide (k ∈ keyStrs (proj1Of d1 c1 e1 tr1))))) = true ∧
    (compareRun d1 c1 e1 tr1 d2 c2 e2 tr2).statistics.unique_matches +
      (compareRun d1 c1 e1 tr1 d2 c2 e2 tr2).statistics.unique_non_matches =
      ((keyStrs (proj2Of d2 c2 e2 tr2)).dedup.length : Int) := by
  have hks1 : ∀ r ∈ (proj1Of d1 c1 e1 tr1).rows, ∃ s, getCell r 0 = .str s :=
    mergeData_key_str _ _ _ (normalize_column_key_str d1 c1 _ _ hr1)
  have hks2 : ∀ r ∈ (proj2Of d2 c2 e2 tr2).rows, ∃ s, getCell r 0 = .str s :=
    mergeData_key_str _ _ _ (normalize_column_key_str d2 c2 _ _ hr2)
  have hne2 : ∀ r ∈ (proj2Of d2 c2 e2 tr2).rows, r ≠ [] := mergeData_rows_ne_nil _ _ _
  have hc1 : colIdx (proj1Of d1 c1 e1 tr1) "normalized_key" = 0 := colIdx_mergeData _ _ _
  have hc2 : colIdx (proj2Of d2 c2 e2 tr2) "normalized_key" = 0 := colIdx_mergeData _ _ _
  have hcM : colIdx (innerMerge (proj2Of d2 c2 e2 tr2) (proj1Of d1 c1 e1 tr1))
      "normalized_key" = 0 := colIdx_innerMerge_mergeData _ _ _ _
  have hM : (compareRun d1 c1 e1 tr1 d2 c2 e2 tr2).matchesDf =
      innerMerge (proj2Of d2 c2 e2 tr2) (proj1Of d1 c1 e1 tr1) := rfl
  have hNM : (compareRun d1 c1 e1 tr1 d2 c2 e2 tr2).non_matches =
      nonMatchesOf (proj1Of d1 c1 e1 tr1) (proj2Of d2 c2 e2 tr2)
        (renameTag e1 "_dataset1") (renameTag e2 "_dataset2") := rfl
  have hlen2 : ∀ r ∈ (proj2Of d2 c2 e2 tr2).rows,
      r.length = (renameTag e2 "_dataset2").length + 1 := by
    intro r hr
    have := mergeData_row_length _ _ _ r hr
    simpa [renameTag] using this
  have hmemM : ∀ k : String,
      k ∈ keyStrs (innerMerge (proj2Of d2 c2 e2 tr2) (proj1Of d1 c1 e1 tr1)) ↔
        (k ∈ keyStrs (proj2Of d2 c2 e2 tr2) ∧ k ∈ keyStrs (proj1Of d1 c1 e1 tr1)) :=
    fun k => innerMerge_keyStrs_mem _ _ k hks1 hks2 hne2 hc1 hc2 hcM
  have hmemNM : ∀ k : String,
      k ∈ keyStrs (nonMatchesOf (proj1Of d1 c1 e1 tr1) (proj2Of d2 c2 e2 tr2)
        (renameTag e1 "_dataset1") (renameTag e2 "_dataset2")) ↔
        (k ∈ keyStrs (proj2Of d2 c2 e2 tr2) ∧ k ∉ keyStrs (proj1Of d1 c1 e1 tr1)) :=
    fun k => nonMatches_keyStrs_mem _ _ _ _ k hks1 hks2 hne2 hc1 hc2 rfl hnd hlen2
  constructor
  · rw [List.all_eq_true]
    intro k hk
    rw [Bool.and_eq_true]
    constructor
    · rw [hM, beq_iff_eq, decide_eq_decide, hmemM k]
      exact and_iff_right hk
    · rw [hNM, beq_iff_eq, ← decide_not, decide_eq_decide, hmemNM k]
      exact and_iff_right hk
  · have hstatM : (compareRun d1 c1 e1 tr1 d2 c2 e2 tr2).statistics.unique_matches =
        ((get_unique_records (innerMerge (proj2Of d2 c2 e2 tr2) (proj1Of d1 c1 e1 tr1))
          "normalized_key").rows.length : Int) := by
      show ((astypeStr (applyRemoveAccents (get_unique_records
        (compareRun d1 c1 e1 tr1 d2 c2 e2 tr2).matchesDf "normalized_key"))).rows.length : Int) = _
      rw [length_astype_accents, hM]
    have hstatNM : (compareRun d1 c1 e1 tr1 d2 c2 e2 tr2).statistics.unique_non_matches =
        ((get_unique_records (nonMatchesOf (proj1Of d1 c1 e1 tr1) (proj2Of d2 c2 e2 tr2)
          (renameTag e1 "_dataset1") (renameTag e2 "_dataset2"))
          "normalized_key").rows.length : Int) := by
      show ((astypeStr (applyRemoveAccents (get_unique_records
        (compareRun d1 c1 e1 tr1 d2 c2 e2 tr2).non_matches "normalized_key"))).rows.length : Int) = _
      rw [length_astype_accents, hNM]
    rw [hstatM, hstatNM]
    have hMstr : ∀ r ∈ (innerMerge (proj2Of d2 c2 e2 tr2) (proj1Of d1 c1 e1 tr1)).rows,
        ∃ s, getCell r 0 = .str s := by
      intro r hr
      rw [innerMerge_rows_eq, hc1, hc2] at hr
      obtain ⟨rl, hrl, hrest⟩ := List.mem_flatMap.mp hr
      obtain ⟨rr, _, rfl⟩ := List.mem_map.mp hrest
      obtain ⟨s, hs⟩ := hks2 rl hrl
      exact ⟨s, by
        rw [getCell_append_left _ _ _ (List.length_pos.mpr (hne2 rl hrl))]
        exact hs⟩
    have hNMstr : ∀ r ∈ (nonMatchesOf (proj1Of d1 c1 e1 tr1) (proj2Of d2 c2 e2 tr2)
        (renameTag e1 "_dataset1") (renameTag e2 "_dataset2")).rows,
        ∃ s, getCell r 0 = .str s := by
      rw [nonMatchesOf_eq _ _ _ _ rfl hnd hlen2]
      intro r hr
      obtain ⟨r2, hr2f, rfl⟩ := List.mem_map.mp hr
      have hr2 := (List.mem_filter.mp hr2f).1
      obtain ⟨s, hs⟩ := hks2 r2 hr2
      exact ⟨s, by
        rw [getCell_append_left _ _ _ (List.length_pos.mpr (hne2 r2 hr2))]
        exact hs⟩
    have hcNM : colIdx (nonMatchesOf (proj1Of d1 c1 e1 tr1) (proj2Of d2 c2 e2 tr2)
        (renameTag e1 "_dataset1") (renameTag e2 "_dataset2")) "normalized_key" = 0 := by
      rw [nonMatchesOf_eq _ _ _ _ rfl hnd hlen2]
      show ("normalized_key" :: (renameTag e2 "_dataset2" ++ renameTag e1 "_dataset1")).indexOf
        "normalized_key" = 0
      rw [List.indexOf_cons_self]
    rw [get_unique_records_length_toFinset _ hcM hMstr]
    rw [get_unique_records_length_toFinset _ hcNM hNMstr]
    have hfinM : (keyStrs (innerMerge (proj2Of d2 c2 e2 tr2)
        (proj1Of d1 c1 e1 tr1))).toFinset =
        (keyStrs (proj2Of d2 c2 e2 tr2)).toFinset ∩
          (keyStrs (proj1Of d1 c1 e1 tr1)).toFinset := by
      ext k
      simp only [List.mem_toFinset, Finset.mem_inter]
      exact hmemM k
    have hfinNM : (keyStrs (nonMatchesOf (proj1Of d1 c1 e1 tr1) (proj2Of d2 c2 e2 tr2)
        (renameTag e1 "_dataset1") (renameTag e2 "_dataset2"))).toFinset =
        (keyStrs (proj2Of d2 c2 e2 tr2)).toFinset \
          (keyStrs (proj1Of d1 c1 e1 tr1)).toFinset := by
      ext k
      simp only [List.mem_toFinset, Finset.mem_sdiff]
      exact hmemNM k
    rw [hfinM, hfinNM, ← List.card_toFinset, ← Nat.cast_add]
    congr 1
    have hpart := Finset.card_sdiff_add_card_inter
      (keyStrs (proj2Of d2 c2 e2 tr2)).toFinset (keyStrs (proj1Of d1 c1 e1 tr1)).toFinset
    omega

def table1C10 : Table := ⟨["k1"], [[.str "1"], [.str "1"], [.str "3"]]⟩

def table2C10 : Table := ⟨["k2"], [[.str "1"], [.str "2"], [.str "2"]]⟩

/-- Instance of `C10_key_partition` at a concrete comparison with
duplicate keys on both sides. -/
theorem C10_key_partition_witness :
    ((keyStrs (proj2Of table2C10 "k2" [] noTrimOpt)).all (fun k =>
      (decide (k ∈ keyStrs (compareRun table1C10 "k1" [] noTrimOpt
          table2C10 "k2" [] noTrimOpt).matchesDf) ==
        decide (k ∈ keyStrs (proj1Of table1C10 "k1" [] noTrimOpt))) &&
      (decide (k ∈ keyStrs (compareRun table1C10 "k1" [] noTrimOpt
          table2C10 "k2" [] noTrimOpt).non_matches) ==
        !decide (k ∈ keyStrs (proj1Of table1C10 "k1" [] noTrimOpt))))) = true ∧
    (compareRun table1C10 "k1" [] noTrimOpt
        table2C10 "k2" [] noTrimOpt).statistics.unique_matches +
      (compareRun table1C10 "k1" [] noTrimOpt
        table2C10 "k2" [] noTrimOpt).statistics.unique_non_matches =
      ((keyStrs (proj2Of table2C10 "k2" [] noTrimOpt)).dedup.length : Int) :=
  C10_key_partition table1C10 "k1" [] noTrimOpt table2C10 "k2" [] noTrimOpt
    (by decide) (by decide) (by decide)
